import Mathlib

/-!
# Verification of the `HexCrypto` cipher engine

Shallow embedding of the custom hex encryption scheme of this repository
(`class HexCrypto`): SHA-256 key derivation, the per-byte XOR/rotate
transform, hex encoding with Node `Buffer` semantics, and the on-chain
tag wrapping.  Bytes are modelled as `Nat` values `< 256`; JavaScript
strings are modelled as Lean `String` (sequences of Unicode scalar
values); buffers as `List Nat`.
-/

/-! ## Bit rotation within 8 bits

JavaScript `((byte << shift) | (byte >> (8 - shift))) & 0xff` on a
non-negative number below 2^25 is exactly the arithmetic below
(`& 0xff` is reduction mod 256). -/

/-- Left-rotate within 8 bits: `((b << s) | (b >> (8 - s))) & 0xff`. -/
def rotl8 (b s : Nat) : Nat := ((b <<< s) ||| (b >>> (8 - s))) % 256

/-- Right-rotate within 8 bits: `((b >> s) | (b << (8 - s))) & 0xff`. -/
def rotr8 (b s : Nat) : Nat := ((b >>> s) ||| (b <<< (8 - s))) % 256

/-! ## Hex encoding (Node `Buffer.toString('hex')`) -/

/-- Lowercase hex digit for a value below 16 (`0`–`9`, `a`–`f`). -/
def hexDigitChar (n : Nat) : Char :=
  if n < 10 then Char.ofNat (48 + n) else Char.ofNat (87 + n)

/-- Two lowercase hex characters of one byte. -/
def byteToHexChars (b : Nat) : List Char :=
  [hexDigitChar (b / 16), hexDigitChar (b % 16)]

/-- `Buffer.toString('hex')`: lowercase hex of a byte sequence. -/
def bytesToHexChars : List Nat → List Char
  | [] => []
  | b :: bs => byteToHexChars b ++ bytesToHexChars bs

/-! ## Hex decoding (Node `Buffer.from(str, 'hex')`)

Node's hex decoder never throws: it consumes two characters at a time
and stops at the first pair containing a non-hex character; a trailing
lone character is dropped. -/

/-- Hex digit recognizer (`0-9`, `a-f`, `A-F`), matching Node. -/
abbrev isHexDigitChar (c : Char) : Prop :=
  (48 ≤ c.toNat ∧ c.toNat ≤ 57) ∨ (97 ≤ c.toNat ∧ c.toNat ≤ 102) ∨
    (65 ≤ c.toNat ∧ c.toNat ≤ 70)

/-- Numeric value of a hex digit character. -/
def hexVal (c : Char) : Nat :=
  if 48 ≤ c.toNat ∧ c.toNat ≤ 57 then c.toNat - 48
  else if 97 ≤ c.toNat then c.toNat - 87
  else c.toNat - 55

/-- `Buffer.from(str, 'hex')` with Node's truncating semantics. -/
def nodeHexDecode : List Char → List Nat
  | c1 :: c2 :: rest =>
    if isHexDigitChar c1 ∧ isHexDigitChar c2 then
      (hexVal c1 * 16 + hexVal c2) :: nodeHexDecode rest
    else []
  | _ => []

/-- `hexString.startsWith('0x') ? hexString.slice(2) : hexString`. -/
def strip0x (cs : List Char) : List Char :=
  if cs.take 2 = ['0', 'x'] then cs.drop 2 else cs

/-! ## UTF-8 (Node `Buffer.from(s, 'utf8')` / `buf.toString('utf8')`) -/

/-- UTF-8 bytes of one Unicode scalar value. -/
def utf8EncodeChar (n : Nat) : List Nat :=
  if n < 128 then [n]
  else if n < 2048 then [192 + n / 64, 128 + n % 64]
  else if n < 65536 then [224 + n / 4096, 128 + n / 64 % 64, 128 + n % 64]
  else [240 + n / 262144, 128 + n / 4096 % 64, 128 + n / 64 % 64, 128 + n % 64]

/-- `Buffer.from(s, 'utf8')`: UTF-8 bytes of a string's scalar values. -/
def utf8Encode : List Char → List Nat
  | [] => []
  | c :: cs => utf8EncodeChar c.toNat ++ utf8Encode cs

/-- UTF-8 continuation byte (`10xxxxxx`). -/
abbrev isContByte (b : Nat) : Prop := 128 ≤ b ∧ b ≤ 191

/-- Second-byte restriction for 3-byte sequences (no overlong, no
surrogate). -/
abbrev utf8Cont2Ok (b b2 : Nat) : Prop :=
  (b = 224 → 160 ≤ b2) ∧ (b = 237 → b2 ≤ 159)

/-- Second-byte restriction for 4-byte sequences (no overlong, max
U+10FFFF). -/
abbrev utf8Cont3Ok (b b2 : Nat) : Prop :=
  (b = 240 → 144 ≤ b2) ∧ (b = 244 → b2 ≤ 143)

/-- Number of continuation bytes of a well-formed sequence led by `b`
and followed by `rest`; `0` when `b` does not open a well-formed
multi-byte sequence. -/
def utf8SeqLen (b : Nat) (rest : List Nat) : Nat :=
  if 194 ≤ b ∧ b ≤ 223 then
    match rest with
    | b2 :: _ => if isContByte b2 then 1 else 0
    | _ => 0
  else if 224 ≤ b ∧ b ≤ 239 then
    match rest with
    | b2 :: b3 :: _ =>
      if isContByte b2 ∧ isContByte b3 ∧ utf8Cont2Ok b b2 then 2 else 0
    | _ => 0
  else if 240 ≤ b ∧ b ≤ 244 then
    match rest with
    | b2 :: b3 :: b4 :: _ =>
      if isContByte b2 ∧ isContByte b3 ∧ isContByte b4 ∧ utf8Cont3Ok b b2 then 3
      else 0
    | _ => 0
  else 0

/-- The replacement character U+FFFD emitted for invalid input. -/
def replacementChar : Char := Char.ofNat 65533

/-- Scalar value decoded from a lead byte and its continuation bytes;
the replacement character when the sequence is not well formed. -/
def utf8DecodeSeq (b : Nat) (cont : List Nat) : Char :=
  match cont with
  | [] => if b < 128 then Char.ofNat b else replacementChar
  | [b2] => Char.ofNat ((b - 192) * 64 + (b2 - 128))
  | [b2, b3] => Char.ofNat ((b - 224) * 4096 + (b2 - 128) * 64 + (b3 - 128))
  | [b2, b3, b4] =>
    Char.ofNat ((b - 240) * 262144 + (b2 - 128) * 4096 + (b3 - 128) * 64 +
      (b4 - 128))
  | _ => replacementChar

/-- Lenient decoding loop; `fuel` bounds the number of decoded
characters (structural recursion so the kernel can evaluate it; the
wrapper always supplies enough fuel). -/
def utf8DecodeGo : Nat → List Nat → List Char
  | _, [] => []
  | 0, _ => []
  | fuel + 1, b :: rest =>
    let k := utf8SeqLen b rest
    utf8DecodeSeq b (rest.take k) :: utf8DecodeGo fuel (rest.drop k)

/-- `buf.toString('utf8')`: lenient WHATWG-style decoding, substituting
U+FFFD for bytes that do not open a well-formed sequence. -/
def utf8DecodeLenient (l : List Nat) : List Char := utf8DecodeGo l.length l

/-- Strict decoding loop with fuel. -/
def utf8StrictGo : Nat → List Nat → Option (List Char)
  | _, [] => some []
  | 0, _ => none
  | fuel + 1, b :: rest =>
    if b < 128 then (utf8StrictGo fuel rest).map (fun cs => Char.ofNat b :: cs)
    else
      let k := utf8SeqLen b rest
      if k = 0 then none
      else
        (utf8StrictGo fuel (rest.drop k)).map
          (fun cs => utf8DecodeSeq b (rest.take k) :: cs)

/-- Strict UTF-8 decoding, `none` on any malformed byte.  This is the
spec's words for the final decode step ("fails with `DecodeError` if
invalid"), used to compare against the implementation's lenient
decoding. -/
def utf8DecodeStrict (l : List Nat) : Option (List Char) :=
  utf8StrictGo l.length l

/-! ## SHA-256 (`crypto.createHash('sha256')`)

The constructor derives the key with Node's `crypto` module; the hash
itself is the standard FIPS 180-4 SHA-256, embedded here as a pure
function over byte lists.  32-bit words are `Nat` values reduced
modulo `2^32`. -/

/-- Right-rotate of a 32-bit word. -/
def ror32 (x n : Nat) : Nat := ((x >>> n) ||| (x <<< (32 - n))) % 4294967296

/-- The 64 SHA-256 round constants. -/
def sha256K : List Nat :=
  [1116352408, 1899447441, 3049323471, 3921009573, 961987163,
   1508970993, 2453635748, 2870763221, 3624381080, 310598401,
   607225278, 1426881987, 1925078388, 2162078206, 2614888103,
   3248222580, 3835390401, 4022224774, 264347078, 604807628,
   770255983, 1249150122, 1555081692, 1996064986, 2554220882,
   2821834349, 2952996808, 3210313671, 3336571891, 3584528711,
   113926993, 338241895, 666307205, 773529912, 1294757372,
   1396182291, 1695183700, 1986661051, 2177026350, 2456956037,
   2730485921, 2820302411, 3259730800, 3345764771, 3516065817,
   3600352804, 4094571909, 275423344, 430227734, 506948616,
   659060556, 883997877, 958139571, 1322822218, 1537002063,
   1747873779, 1955562222, 2024104815, 2227730452, 2361852424,
   2428436474, 2756734187, 3204031479, 3329325298]

/-- SHA-256 padding: a `0x80` byte, zeros to 56 mod 64, then the
bit length as 8 big-endian bytes. -/
def sha256Pad (msg : List Nat) : List Nat :=
  let n := 8 * msg.length
  msg ++ 128 :: List.replicate ((64 - (msg.length + 9) % 64) % 64) 0 ++
    [n / 72057594037927936 % 256, n / 281474976710656 % 256,
     n / 1099511627776 % 256, n / 4294967296 % 256, n / 16777216 % 256,
     n / 65536 % 256, n / 256 % 256, n % 256]

/-- Split a byte list into 64-byte blocks; `fuel` bounds the number of
blocks (structural recursion so the kernel can evaluate it). -/
def chunks64Go : Nat → List Nat → List (List Nat)
  | 0, _ => []
  | _, [] => []
  | fuel + 1, b :: rest =>
    ((b :: rest).take 64) :: chunks64Go fuel ((b :: rest).drop 64)

/-- Split a byte list into 64-byte blocks. -/
def chunks64 (l : List Nat) : List (List Nat) := chunks64Go l.length l

/-- Big-endian 32-bit word `i` of a 64-byte block. -/
def wordAt (block : List Nat) (i : Nat) : Nat :=
  block.getD (4 * i) 0 * 16777216 + block.getD (4 * i + 1) 0 * 65536 +
    block.getD (4 * i + 2) 0 * 256 + block.getD (4 * i + 3) 0

/-- σ0 of the SHA-256 message schedule. -/
def smallSigma0 (x : Nat) : Nat := ror32 x 7 ^^^ ror32 x 18 ^^^ (x >>> 3)

/-- σ1 of the SHA-256 message schedule. -/
def smallSigma1 (x : Nat) : Nat := ror32 x 17 ^^^ ror32 x 19 ^^^ (x >>> 10)

/-- Σ0 of the SHA-256 compression function. -/
def bigSigma0 (x : Nat) : Nat := ror32 x 2 ^^^ ror32 x 13 ^^^ ror32 x 22

/-- Σ1 of the SHA-256 compression function. -/
def bigSigma1 (x : Nat) : Nat := ror32 x 6 ^^^ ror32 x 11 ^^^ ror32 x 25

/-- `Ch(x, y, z)`; bitwise NOT is XOR with the 32-bit mask. -/
def chFun (x y z : Nat) : Nat := (x &&& y) ^^^ ((x ^^^ 4294967295) &&& z)

/-- `Maj(x, y, z)`. -/
def majFun (x y z : Nat) : Nat := (x &&& y) ^^^ (x &&& z) ^^^ (y &&& z)

/-- Extend the message schedule, keeping the words in reverse order
(newest first). -/
def extendLoop : Nat → List Nat → List Nat
  | 0, ws => ws
  | k + 1, ws =>
    extendLoop k
      (((smallSigma1 (ws.getD 1 0) + ws.getD 6 0 + smallSigma0 (ws.getD 14 0) +
          ws.getD 15 0) % 4294967296) :: ws)

/-- The 64-word message schedule of one block. -/
def schedule (block : List Nat) : List Nat :=
  (extendLoop 48 (((List.range 16).map (wordAt block)).reverse)).reverse

/-- The eight SHA-256 working variables. -/
structure Sha256State where
  a : Nat
  b : Nat
  c : Nat
  d : Nat
  e : Nat
  f : Nat
  g : Nat
  h : Nat

/-- One round of the compression function. -/
def sha256Round (s : Sha256State) (ki wi : Nat) : Sha256State :=
  let t1 := (s.h + bigSigma1 s.e + chFun s.e s.f s.g + ki + wi) % 4294967296
  let t2 := (bigSigma0 s.a + majFun s.a s.b s.c) % 4294967296
  ⟨(t1 + t2) % 4294967296, s.a, s.b, s.c, (s.d + t1) % 4294967296, s.e, s.f,
    s.g⟩

/-- Compress one 64-byte block into the running state. -/
def sha256Compress (s0 : Sha256State) (block : List Nat) : Sha256State :=
  let w := schedule block
  let s := (sha256K.zip w).foldl (fun s p => sha256Round s p.1 p.2) s0
  ⟨(s.a + s0.a) % 4294967296, (s.b + s0.b) % 4294967296,
   (s.c + s0.c) % 4294967296, (s.d + s0.d) % 4294967296,
   (s.e + s0.e) % 4294967296, (s.f + s0.f) % 4294967296,
   (s.g + s0.g) % 4294967296, (s.h + s0.h) % 4294967296⟩

/-- The SHA-256 initial hash value. -/
def sha256Init : Sha256State :=
  ⟨1779033703, 3144134277, 1013904242, 2773480762,
   1359893119, 2600822924, 528734635, 1541459225⟩

/-- Big-endian bytes of a 32-bit word. -/
def wordBytes (x : Nat) : List Nat :=
  [x / 16777216 % 256, x / 65536 % 256, x / 256 % 256, x % 256]

/-- SHA-256 digest (32 bytes) of a byte sequence. -/
def sha256 (msg : List Nat) : List Nat :=
  let s := (chunks64 (sha256Pad msg)).foldl sha256Compress sha256Init
  wordBytes s.a ++ wordBytes s.b ++ wordBytes s.c ++ wordBytes s.d ++
    wordBytes s.e ++ wordBytes s.f ++ wordBytes s.g ++ wordBytes s.h

/-! ## The `HexCrypto` class -/

namespace HexCrypto

/-- The derived key held by a `HexCrypto` instance:
`crypto.createHash('sha256').update(secretKey).digest()` (the string is
hashed as its UTF-8 bytes). -/
def key (secretKey : String) : List Nat :=
  sha256 (utf8Encode secretKey.data)

/-- One iteration of the encryption loop at index `i`: XOR with the
key byte, XOR with the salt byte, then circular left shift. -/
def transformEnc (key salt : List Nat) (i b : Nat) : Nat :=
  rotl8 ((b ^^^ key.getD (i % key.length) 0) ^^^ salt.getD (i % salt.length) 0)
    (i % 7 + 1)

/-- One iteration of the decryption loop at index `i`: circular right
shift, XOR with the salt byte, XOR with the key byte. -/
def transformDec (key salt : List Nat) (i b : Nat) : Nat :=
  (rotr8 b (i % 7 + 1) ^^^ salt.getD (i % salt.length) 0) ^^^
    key.getD (i % key.length) 0

/-- The encryption loop starting at index `i`. -/
def encryptBytesFrom (key salt : List Nat) : Nat → List Nat → List Nat
  | _, [] => []
  | i, b :: bs => transformEnc key salt i b :: encryptBytesFrom key salt (i + 1) bs

/-- The decryption loop starting at index `i`. -/
def decryptBytesFrom (key salt : List Nat) : Nat → List Nat → List Nat
  | _, [] => []
  | i, b :: bs => transformDec key salt i b :: decryptBytesFrom key salt (i + 1) bs

/-- The `for` loop of `encrypt` over the whole plaintext buffer. -/
def encryptBytes (key salt pt : List Nat) : List Nat :=
  encryptBytesFrom key salt 0 pt

/-- The `for` loop of `decrypt` over the whole encrypted buffer. -/
def decryptBytes (key salt enc : List Nat) : List Nat :=
  decryptBytesFrom key salt 0 enc

/-- `encrypt(plaintext)`: transform the UTF-8 bytes, then return
`'0x' + (salt ++ encrypted).toString('hex')`.  The 8 random bytes from
`crypto.randomBytes(8)` enter as the explicit `salt` argument. -/
def encrypt (key salt : List Nat) (plaintext : String) : String :=
  ⟨'0' :: 'x' ::
    bytesToHexChars (salt ++ encryptBytes key salt (utf8Encode plaintext.data))⟩

/-- The decode steps of `decrypt` (lines 63–67): strip an optional
`0x`, decode hex with `Buffer.from(hex, 'hex')`, and split into
`salt = data.subarray(0, 8)` and `encrypted = data.subarray(8)`. -/
def decode (hexString : String) : List Nat × List Nat :=
  let data := nodeHexDecode (strip0x hexString.data)
  (data.take 8, data.drop 8)

/-- `decrypt(hexString)`: decode, reverse the transform, and return
`decrypted.toString('utf8')`. -/
def decrypt (key : List Nat) (hexString : String) : String :=
  let sd := decode hexString
  ⟨utf8DecodeLenient (decryptBytes key sd.1 sd.2)⟩

/-- `'0xENC1' + encrypted.slice(2)`: the chain-tag wrap used to build
the `chainData` field. -/
def toChainTag (cs : List Char) : List Char :=
  '0' :: 'x' :: 'E' :: 'N' :: 'C' :: '1' :: cs.drop 2

/-- The chain-tag unwrap of `decryptFromChain`: if the input starts
with `0xENC1`, replace that with `0x`; otherwise leave it unchanged. -/
def fromChainTag (cs : List Char) : List Char :=
  if cs.take 6 = ['0', 'x', 'E', 'N', 'C', '1'] then '0' :: 'x' :: cs.drop 6
  else cs

/-- The object returned by `encryptForChain` (the impure
`timestamp: Date.now()` field is omitted). -/
structure ChainMessage where
  data : String
  chainData : String
  originalLength : Nat

/-- `encryptForChain(message)`. -/
def encryptForChain (key salt : List Nat) (message : String) : ChainMessage :=
  let encrypted := encrypt key salt message
  { data := encrypted
    chainData := ⟨toChainTag encrypted.data⟩
    originalLength := message.data.length }

/-- `decryptFromChain(chainData)`. -/
def decryptFromChain (key : List Nat) (chainData : String) : String :=
  decrypt key ⟨fromChainTag chainData.data⟩

/-- `HexCrypto.stringToHex(str)` (static, no cipher). -/
def stringToHex (str : String) : String :=
  ⟨'0' :: 'x' :: bytesToHexChars (utf8Encode str.data)⟩

/-- `HexCrypto.hexToString(hex)` (static, no cipher). -/
def hexToString (hex : String) : String :=
  ⟨utf8DecodeLenient (nodeHexDecode (strip0x hex.data))⟩

end HexCrypto

/-! ## Spec-side decode contract

The spec's decode contract ("fails with `DecodeError` when …"), stated
with its error taxonomy, to be compared against the implementation's
total `HexCrypto.decode`. -/

/-- The spec's `DecodeError` cases for the decode step. -/
inductive DecodeError where
  | invalidHex : DecodeError
  | saltTooShort : DecodeError
deriving DecidableEq, Repr

/-- All characters are hex digits. -/
def allHexDigits : List Char → Prop
  | [] => True
  | c :: cs => isHexDigitChar c ∧ allHexDigits cs

instance : DecidablePred allHexDigits := fun cs => by
  induction cs with
  | nil => exact .isTrue trivial
  | cons c cs ih => exact instDecidableAnd

/-- Modelled from the spec: the decode contract of section 4.3 —
strip an optional `0x`; fail with `DecodeError` on odd length or a
non-hex character, or when fewer than 8 bytes are decoded; otherwise
split into salt and cipher. -/
def decodeSpec (hexString : String) : Except DecodeError (List Nat × List Nat) :=
  let hex := strip0x hexString.data
  if hex.length % 2 ≠ 0 ∨ ¬ allHexDigits hex then .error .invalidHex
  else
    let data := nodeHexDecode hex
    if data.length < 8 then .error .saltTooShort
    else .ok (data.take 8, data.drop 8)


/-! ## Helper lemmas: the per-byte transform is invertible -/

set_option maxRecDepth 20000 in
/-- The 8-bit rotations are mutually inverse for every byte and every
shift below 8 (the code uses shifts `1`–`7`). -/
theorem rotr8_rotl8 : ∀ s < 8, ∀ b < 256, rotr8 (rotl8 b s) s = b := by decide

theorem xor_xor_cancel (a b : Nat) : a ^^^ b ^^^ b = a := by
  rw [Nat.xor_assoc, Nat.xor_self, Nat.xor_zero]

theorem getD_lt_256 (l : List Nat) (i : Nat) (hl : ∀ x ∈ l, x < 256) :
    l.getD i 0 < 256 := by
  rw [List.getD_eq_getElem?_getD]
  cases h : l[i]? with
  | none => simp
  | some x => simpa using hl x (List.getElem?_mem h)

theorem transformDec_transformEnc (key salt : List Nat) (i b : Nat)
    (hb : b < 256) (hk : ∀ x ∈ key, x < 256) (hs : ∀ x ∈ salt, x < 256) :
    HexCrypto.transformDec key salt i (HexCrypto.transformEnc key salt i b) = b := by
  unfold HexCrypto.transformDec HexCrypto.transformEnc
  have hx : b ^^^ key.getD (i % key.length) 0 ^^^ salt.getD (i % salt.length) 0 < 256 := by
    have h1 : b ^^^ key.getD (i % key.length) 0 < 256 :=
      Nat.xor_lt_two_pow (n := 8) hb (getD_lt_256 key _ hk)
    exact Nat.xor_lt_two_pow (n := 8) h1 (getD_lt_256 salt _ hs)
  rw [rotr8_rotl8 (i % 7 + 1) (by omega) _ hx, xor_xor_cancel, xor_xor_cancel]

theorem decryptBytesFrom_encryptBytesFrom (key salt : List Nat)
    (hk : ∀ x ∈ key, x < 256) (hs : ∀ x ∈ salt, x < 256) :
    ∀ (pt : List Nat) (i : Nat), (∀ x ∈ pt, x < 256) →
      HexCrypto.decryptBytesFrom key salt i
        (HexCrypto.encryptBytesFrom key salt i pt) = pt := by
  intro pt
  induction pt with
  | nil => intro i _; rfl
  | cons b bs ih =>
    intro i hp
    simp only [HexCrypto.encryptBytesFrom, HexCrypto.decryptBytesFrom]
    rw [transformDec_transformEnc key salt i b (hp b (by simp)) hk hs,
      ih (i + 1) (fun x hx => hp x (by simp [hx]))]

theorem encryptBytesFrom_length (key salt : List Nat) :
    ∀ (pt : List Nat) (i : Nat),
      (HexCrypto.encryptBytesFrom key salt i pt).length = pt.length := by
  intro pt
  induction pt with
  | nil => intro i; rfl
  | cons b bs ih =>
    intro i
    simp only [HexCrypto.encryptBytesFrom, List.length_cons, ih]

theorem encryptBytesFrom_lt_256 (key salt : List Nat) :
    ∀ (pt : List Nat) (i : Nat),
      ∀ x ∈ HexCrypto.encryptBytesFrom key salt i pt, x < 256 := by
  intro pt
  induction pt with
  | nil => intro i x hx; simp [HexCrypto.encryptBytesFrom] at hx
  | cons b bs ih =>
    intro i x hx
    simp only [HexCrypto.encryptBytesFrom, List.mem_cons] at hx
    rcases hx with rfl | hx
    · exact Nat.mod_lt _ (by omega)
    · exact ih (i + 1) x hx

/-! ## Helper lemmas: hex encoding and Node hex decoding -/

theorem hexDigit_roundtrip :
    ∀ n < 16, isHexDigitChar (hexDigitChar n) ∧ hexVal (hexDigitChar n) = n := by
  decide

theorem nodeHexDecode_encode_append (bs : List Nat) (t : List Char)
    (hb : ∀ x ∈ bs, x < 256) :
    nodeHexDecode (bytesToHexChars bs ++ t) = bs ++ nodeHexDecode t := by
  induction bs with
  | nil => rfl
  | cons b bs ih =>
    have hblt : b < 256 := hb b (by simp)
    have h1 := hexDigit_roundtrip (b / 16) (by omega)
    have h2 := hexDigit_roundtrip (b % 16) (by omega)
    have hstep : nodeHexDecode (bytesToHexChars (b :: bs) ++ t) =
        (hexVal (hexDigitChar (b / 16)) * 16 + hexVal (hexDigitChar (b % 16))) ::
          nodeHexDecode (bytesToHexChars bs ++ t) := by
      simp only [bytesToHexChars, byteToHexChars, List.cons_append,
        List.nil_append, nodeHexDecode]
      rw [if_pos ⟨h1.1, h2.1⟩]
      simp
    rw [hstep, h1.2, h2.2, ih (fun x hx => hb x (by simp [hx]))]
    have hdm : b / 16 * 16 + b % 16 = b := by omega
    simp [hdm]

theorem nodeHexDecode_encode (bs : List Nat) (hb : ∀ x ∈ bs, x < 256) :
    nodeHexDecode (bytesToHexChars bs) = bs := by
  have h := nodeHexDecode_encode_append bs [] hb
  have hnil : nodeHexDecode ([] : List Char) = [] := rfl
  simpa [hnil] using h

theorem bytesToHexChars_length (bs : List Nat) :
    (bytesToHexChars bs).length = 2 * bs.length := by
  induction bs with
  | nil => rfl
  | cons b bs ih =>
    simp only [bytesToHexChars, byteToHexChars, List.length_append,
      List.length_cons, List.length_nil, ih]
    omega

theorem strip0x_prepend (cs : List Char) : strip0x ('0' :: 'x' :: cs) = cs := by
  simp [strip0x]

/-! ## Helper lemmas: UTF-8 round trip -/

theorem utf8DecodeGo_fuel : ∀ (f1 : Nat) (l : List Nat) (f2 : Nat),
    l.length ≤ f1 → l.length ≤ f2 → utf8DecodeGo f1 l = utf8DecodeGo f2 l := by
  intro f1
  induction f1 with
  | zero =>
    intro l f2 h1 _
    have : l = [] := List.eq_nil_of_length_eq_zero (by omega)
    subst this
    cases f2 <;> rfl
  | succ f1 ih =>
    intro l f2 h1 h2
    cases l with
    | nil => cases f2 <;> rfl
    | cons b rest =>
      cases f2 with
      | zero => simp at h2
      | succ f2 =>
        simp only [utf8DecodeGo]
        congr 1
        apply ih
        · simp only [List.length_drop]
          simp only [List.length_cons] at h1
          omega
        · simp only [List.length_drop]
          simp only [List.length_cons] at h2
          omega

theorem utf8DecodeLenient_cons (b : Nat) (rest : List Nat) :
    utf8DecodeLenient (b :: rest) =
      utf8DecodeSeq b (rest.take (utf8SeqLen b rest)) ::
        utf8DecodeLenient (rest.drop (utf8SeqLen b rest)) := by
  show utf8DecodeGo (b :: rest).length (b :: rest) = _
  rw [show (b :: rest).length = rest.length + 1 from rfl, utf8DecodeGo]
  congr 1
  apply utf8DecodeGo_fuel
  · simp only [List.length_drop]
    omega
  · exact Nat.le_refl _

theorem utf8StrictGo_fuel : ∀ (f1 : Nat) (l : List Nat) (f2 : Nat),
    l.length ≤ f1 → l.length ≤ f2 → utf8StrictGo f1 l = utf8StrictGo f2 l := by
  intro f1
  induction f1 with
  | zero =>
    intro l f2 h1 _
    have : l = [] := List.eq_nil_of_length_eq_zero (by omega)
    subst this
    cases f2 <;> rfl
  | succ f1 ih =>
    intro l f2 h1 h2
    cases l with
    | nil => cases f2 <;> rfl
    | cons b rest =>
      cases f2 with
      | zero => simp at h2
      | succ f2 =>
        simp only [utf8StrictGo]
        simp only [List.length_cons] at h1 h2
        rw [ih rest f2 (by omega) (by omega),
          ih (rest.drop (utf8SeqLen b rest)) (f2)
            (by simp only [List.length_drop]; omega)
            (by simp only [List.length_drop]; omega)]

theorem utf8DecodeStrict_cons (b : Nat) (rest : List Nat) :
    utf8DecodeStrict (b :: rest) =
      if b < 128 then
        (utf8DecodeStrict rest).map (fun cs => Char.ofNat b :: cs)
      else if utf8SeqLen b rest = 0 then none
      else
        (utf8DecodeStrict (rest.drop (utf8SeqLen b rest))).map
          (fun cs => utf8DecodeSeq b (rest.take (utf8SeqLen b rest)) :: cs) := by
  show utf8StrictGo (b :: rest).length (b :: rest) = _
  rw [show (b :: rest).length = rest.length + 1 from rfl, utf8StrictGo]
  rw [utf8StrictGo_fuel rest.length rest rest.length (Nat.le_refl _)
    (Nat.le_refl _)]
  show (if b < 128 then
      (utf8StrictGo rest.length rest).map (fun cs => Char.ofNat b :: cs)
    else if utf8SeqLen b rest = 0 then none
    else
      (utf8StrictGo rest.length (rest.drop (utf8SeqLen b rest))).map
        (fun cs => utf8DecodeSeq b (rest.take (utf8SeqLen b rest)) :: cs)) = _
  rw [utf8StrictGo_fuel rest.length (rest.drop (utf8SeqLen b rest))
    (rest.drop (utf8SeqLen b rest)).length
    (by simp only [List.length_drop]; omega) (Nat.le_refl _)]
  rfl

theorem utf8SeqLen_low (b : Nat) (h : b < 194) (rest : List Nat) :
    utf8SeqLen b rest = 0 := by
  simp only [utf8SeqLen]
  rw [if_neg (by omega), if_neg (by omega), if_neg (by omega)]

theorem utf8Decode_step_ascii (n : Nat) (h : n < 128) (t : List Nat) :
    utf8DecodeLenient (n :: t) = Char.ofNat n :: utf8DecodeLenient t := by
  rw [utf8DecodeLenient_cons, utf8SeqLen_low n (by omega)]
  simp [utf8DecodeSeq, h]

theorem utf8Decode_step_two (n : Nat) (h1 : 128 ≤ n) (h2 : n < 2048)
    (t : List Nat) :
    utf8DecodeLenient ((192 + n / 64) :: (128 + n % 64) :: t) =
      Char.ofNat n :: utf8DecodeLenient t := by
  have hk : utf8SeqLen (192 + n / 64) ((128 + n % 64) :: t) = 1 := by
    simp only [utf8SeqLen]
    rw [if_pos (by omega), if_pos (by constructor <;> omega)]
  rw [utf8DecodeLenient_cons, hk]
  simp only [List.take_succ_cons, List.take_zero, List.drop_succ_cons,
    List.drop_zero, utf8DecodeSeq]
  have hv : (192 + n / 64 - 192) * 64 + (128 + n % 64 - 128) = n := by omega
  rw [hv]

theorem utf8Decode_step_three (n : Nat) (h1 : 2048 ≤ n) (h2 : n < 65536)
    (h3 : ¬(55296 ≤ n ∧ n ≤ 57343)) (t : List Nat) :
    utf8DecodeLenient
        ((224 + n / 4096) :: (128 + n / 64 % 64) :: (128 + n % 64) :: t) =
      Char.ofNat n :: utf8DecodeLenient t := by
  have hk : utf8SeqLen (224 + n / 4096)
      ((128 + n / 64 % 64) :: (128 + n % 64) :: t) = 2 := by
    simp only [utf8SeqLen]
    rw [if_neg (by omega), if_pos (by omega)]
    rw [if_pos]
    refine ⟨⟨by omega, by omega⟩, ⟨by omega, by omega⟩, ?_, ?_⟩
    · intro he
      omega
    · intro he
      omega
  rw [utf8DecodeLenient_cons, hk]
  simp only [List.take_succ_cons, List.take_zero, List.drop_succ_cons,
    List.drop_zero, utf8DecodeSeq]
  have hv : (224 + n / 4096 - 224) * 4096 + (128 + n / 64 % 64 - 128) * 64 +
      (128 + n % 64 - 128) = n := by omega
  rw [hv]

theorem utf8Decode_step_four (n : Nat) (h1 : 65536 ≤ n) (h2 : n < 1114112)
    (t : List Nat) :
    utf8DecodeLenient
        ((240 + n / 262144) :: (128 + n / 4096 % 64) :: (128 + n / 64 % 64) ::
          (128 + n % 64) :: t) =
      Char.ofNat n :: utf8DecodeLenient t := by
  have hk : utf8SeqLen (240 + n / 262144)
      ((128 + n / 4096 % 64) :: (128 + n / 64 % 64) :: (128 + n % 64) :: t) =
        3 := by
    simp only [utf8SeqLen]
    rw [if_neg (by omega), if_neg (by omega), if_pos (by omega)]
    rw [if_pos]
    refine ⟨⟨by omega, by omega⟩, ⟨by omega, by omega⟩, ⟨by omega, by omega⟩,
      ?_, ?_⟩
    · intro he
      omega
    · intro he
      omega
  rw [utf8DecodeLenient_cons, hk]
  simp only [List.take_succ_cons, List.take_zero, List.drop_succ_cons,
    List.drop_zero, utf8DecodeSeq]
  have hv : (240 + n / 262144 - 240) * 262144 + (128 + n / 4096 % 64 - 128) *
      4096 + (128 + n / 64 % 64 - 128) * 64 + (128 + n % 64 - 128) = n := by
    omega
  rw [hv]

theorem utf8DecodeLenient_encodeChar (n : Nat) (h : n.isValidChar)
    (t : List Nat) :
    utf8DecodeLenient (utf8EncodeChar n ++ t) = Char.ofNat n :: utf8DecodeLenient t := by
  have hlt : n < 1114112 := by rcases h with h | ⟨_, h⟩ <;> omega
  by_cases c1 : n < 128
  · rw [utf8EncodeChar, if_pos c1]
    exact utf8Decode_step_ascii n c1 t
  · by_cases c2 : n < 2048
    · rw [utf8EncodeChar, if_neg c1, if_pos c2]
      exact utf8Decode_step_two n (by omega) c2 t
    · by_cases c3 : n < 65536
      · rw [utf8EncodeChar, if_neg c1, if_neg c2, if_pos c3]
        have h3 : ¬(55296 ≤ n ∧ n ≤ 57343) := by
          rcases h with h | ⟨h', _⟩ <;> omega
        exact utf8Decode_step_three n (by omega) c3 h3 t
      · rw [utf8EncodeChar, if_neg c1, if_neg c2, if_neg c3]
        exact utf8Decode_step_four n (by omega) hlt t

theorem utf8DecodeLenient_encode_append (cs : List Char) (t : List Nat) :
    utf8DecodeLenient (utf8Encode cs ++ t) = cs ++ utf8DecodeLenient t := by
  induction cs with
  | nil => rfl
  | cons c cs ih =>
    have hv : (Char.toNat c).isValidChar := c.valid
    simp only [utf8Encode, List.append_assoc, List.cons_append, List.nil_append]
    rw [utf8DecodeLenient_encodeChar c.toNat hv, ih, Char.ofNat_toNat]

theorem utf8DecodeLenient_encode (cs : List Char) :
    utf8DecodeLenient (utf8Encode cs) = cs := by
  have h := utf8DecodeLenient_encode_append cs []
  rw [List.append_nil] at h
  rw [show utf8DecodeLenient ([] : List Nat) = [] from rfl, List.append_nil] at h
  exact h

theorem utf8EncodeChar_lt_256 (n : Nat) (h : n < 1114112) :
    ∀ x ∈ utf8EncodeChar n, x < 256 := by
  intro x hx
  rw [utf8EncodeChar] at hx
  by_cases c1 : n < 128
  · rw [if_pos c1] at hx
    simp at hx
    omega
  · rw [if_neg c1] at hx
    by_cases c2 : n < 2048
    · rw [if_pos c2] at hx
      simp at hx
      rcases hx with rfl | rfl <;> omega
    · rw [if_neg c2] at hx
      by_cases c3 : n < 65536
      · rw [if_pos c3] at hx
        simp at hx
        rcases hx with rfl | rfl | rfl <;> omega
      · rw [if_neg c3] at hx
        simp at hx
        rcases hx with rfl | rfl | rfl | rfl <;> omega

theorem utf8Encode_lt_256 (cs : List Char) : ∀ x ∈ utf8Encode cs, x < 256 := by
  induction cs with
  | nil => intro x hx; simp [utf8Encode] at hx
  | cons c cs ih =>
    intro x hx
    simp only [utf8Encode, List.mem_append] at hx
    rcases hx with hx | hx
    · have hv : Char.toNat c < 1114112 := by
        simp only [Char.toNat]
        rcases c.valid with h | ⟨_, h⟩ <;> omega
      exact utf8EncodeChar_lt_256 c.toNat hv x hx
    · exact ih x hx

/-- Wherever strict UTF-8 decoding succeeds, the lenient decoder
returns the same characters. -/
theorem utf8DecodeStrict_lenient : ∀ (bs : List Nat) (cs : List Char),
    utf8DecodeStrict bs = some cs → utf8DecodeLenient bs = cs
  | [], cs, h => by
    simp only [utf8DecodeStrict, utf8StrictGo, Option.some.injEq] at h
    rw [← h]
    rfl
  | b :: rest, cs, h => by
    rw [utf8DecodeStrict_cons] at h
    by_cases hb : b < 128
    · rw [if_pos hb] at h
      obtain ⟨cs', hcs', rfl⟩ := Option.map_eq_some'.1 h
      rw [utf8Decode_step_ascii b hb,
        utf8DecodeStrict_lenient rest cs' hcs']
    · rw [if_neg hb] at h
      by_cases hk : utf8SeqLen b rest = 0
      · rw [if_pos hk] at h
        exact absurd h (by simp)
      · rw [if_neg hk] at h
        obtain ⟨cs', hcs', rfl⟩ := Option.map_eq_some'.1 h
        rw [utf8DecodeLenient_cons,
          utf8DecodeStrict_lenient (rest.drop (utf8SeqLen b rest)) cs' hcs']
termination_by bs => bs.length
decreasing_by
  all_goals simp only [List.length_drop, List.length_cons]
  all_goals omega

/-! ## Helper lemmas: end-to-end round trip -/

theorem encrypt_data (key salt : List Nat) (p : String) :
    (HexCrypto.encrypt key salt p).data =
      '0' :: 'x' ::
        bytesToHexChars (salt ++ HexCrypto.encryptBytes key salt (utf8Encode p.data)) :=
  rfl

theorem salt_cipher_lt_256 (key salt pt : List Nat) (hsb : ∀ x ∈ salt, x < 256) :
    ∀ x ∈ salt ++ HexCrypto.encryptBytes key salt pt, x < 256 := by
  intro x hx
  rcases List.mem_append.1 hx with hx | hx
  · exact hsb x hx
  · exact encryptBytesFrom_lt_256 key salt pt 0 x hx

/-- The decode step recovers exactly the salt and cipher bytes that
`encrypt` packed into the hex string. -/
theorem decode_encrypt (key salt : List Nat) (p : String)
    (hs : salt.length = 8) (hsb : ∀ x ∈ salt, x < 256) :
    HexCrypto.decode (HexCrypto.encrypt key salt p) =
      (salt, HexCrypto.encryptBytes key salt (utf8Encode p.data)) := by
  unfold HexCrypto.decode
  rw [encrypt_data, strip0x_prepend,
    nodeHexDecode_encode _ (salt_cipher_lt_256 key salt _ hsb)]
  show (List.take 8 (salt ++ HexCrypto.encryptBytes key salt (utf8Encode p.data)),
      List.drop 8 (salt ++ HexCrypto.encryptBytes key salt (utf8Encode p.data))) =
    (salt, HexCrypto.encryptBytes key salt (utf8Encode p.data))
  rw [List.take_left' hs, List.drop_left' hs]

/-- Core round trip: `decrypt` inverts `encrypt` for any 8-byte salt
and any key and salt made of bytes. -/
theorem decrypt_encrypt (key salt : List Nat) (p : String)
    (hs : salt.length = 8) (hkb : ∀ x ∈ key, x < 256)
    (hsb : ∀ x ∈ salt, x < 256) :
    HexCrypto.decrypt key (HexCrypto.encrypt key salt p) = p := by
  unfold HexCrypto.decrypt
  rw [decode_encrypt key salt p hs hsb]
  show String.mk (utf8DecodeLenient (HexCrypto.decryptBytes key salt
    (HexCrypto.encryptBytes key salt (utf8Encode p.data)))) = p
  unfold HexCrypto.decryptBytes HexCrypto.encryptBytes
  rw [decryptBytesFrom_encryptBytesFrom key salt hkb hsb (utf8Encode p.data) 0
    (utf8Encode_lt_256 p.data), utf8DecodeLenient_encode]

/-! ## Helper lemmas: chain tagging -/

theorem fromChainTag_toChainTag (cs : List Char) (h : cs.take 2 = ['0', 'x']) :
    HexCrypto.fromChainTag (HexCrypto.toChainTag cs) = cs := by
  unfold HexCrypto.toChainTag HexCrypto.fromChainTag
  rw [if_pos (by simp)]
  simp only [List.drop_succ_cons, List.drop_zero]
  conv_rhs => rw [← List.take_append_drop 2 cs]
  rw [h]
  rfl

theorem decryptFromChain_chainData (key salt : List Nat) (p : String)
    (hs : salt.length = 8) (hkb : ∀ x ∈ key, x < 256)
    (hsb : ∀ x ∈ salt, x < 256) :
    HexCrypto.decryptFromChain key
      (HexCrypto.encryptForChain key salt p).chainData = p := by
  unfold HexCrypto.decryptFromChain HexCrypto.encryptForChain
  have htag : HexCrypto.fromChainTag
      (String.mk (HexCrypto.toChainTag (HexCrypto.encrypt key salt p).data)).data =
        (HexCrypto.encrypt key salt p).data := by
    apply fromChainTag_toChainTag
    rw [encrypt_data]
    rfl
  rw [htag]
  show HexCrypto.decrypt key (HexCrypto.encrypt key salt p) = p
  exact decrypt_encrypt key salt p hs hkb hsb

/-! ## Helper lemmas: SHA-256 digest shape -/

theorem wordBytes_lt_256 (w : Nat) : ∀ x ∈ wordBytes w, x < 256 := by
  intro x hx
  simp [wordBytes] at hx
  rcases hx with rfl | rfl | rfl | rfl <;> omega

theorem sha256_length (msg : List Nat) : (sha256 msg).length = 32 := by
  simp [sha256, wordBytes]

theorem sha256_lt_256 (msg : List Nat) : ∀ x ∈ sha256 msg, x < 256 := by
  intro x hx
  simp only [sha256, List.mem_append] at hx
  rcases hx with ((((((hx | hx) | hx) | hx) | hx) | hx) | hx) | hx <;>
    exact wordBytes_lt_256 _ x hx

/-! ## Helper lemmas: truncation, salt distinctness, cipher formula -/

/-- Node hex decoding truncates at the first invalid pair: everything
decoded before it is kept, everything after it is dropped. -/
theorem nodeHexDecode_truncate (bs : List Nat) (hb : ∀ x ∈ bs, x < 256)
    (c1 c2 : Char) (rest : List Char)
    (hbad : ¬(isHexDigitChar c1 ∧ isHexDigitChar c2)) :
    nodeHexDecode (bytesToHexChars bs ++ c1 :: c2 :: rest) = bs := by
  rw [nodeHexDecode_encode_append bs _ hb]
  have h2 : nodeHexDecode (c1 :: c2 :: rest) = [] := by
    simp only [nodeHexDecode]
    rw [if_neg hbad]
  rw [h2, List.append_nil]

/-- Distinct 8-byte salts give distinct encrypted output strings. -/
theorem encrypt_ne_of_salt_ne (key s1 s2 : List Nat) (p : String)
    (h1 : s1.length = 8) (h2 : s2.length = 8)
    (hb1 : ∀ x ∈ s1, x < 256) (hb2 : ∀ x ∈ s2, x < 256) (hne : s1 ≠ s2) :
    HexCrypto.encrypt key s1 p ≠ HexCrypto.encrypt key s2 p := by
  intro he
  apply hne
  have hd := congrArg String.data he
  rw [encrypt_data, encrypt_data] at hd
  injection hd with _ hd
  injection hd with _ hd
  have hdec := congrArg nodeHexDecode hd
  rw [nodeHexDecode_encode _ (salt_cipher_lt_256 key s1 _ hb1),
    nodeHexDecode_encode _ (salt_cipher_lt_256 key s2 _ hb2)] at hdec
  have ht := congrArg (List.take 8) hdec
  rw [List.take_left' h1, List.take_left' h2] at ht
  exact ht

/-- The encryption loop, position by position. -/
theorem encryptBytesFrom_getD (key salt : List Nat) :
    ∀ (pt : List Nat) (j i : Nat), i < pt.length →
      (HexCrypto.encryptBytesFrom key salt j pt).getD i 0 =
        HexCrypto.transformEnc key salt (j + i) (pt.getD i 0) := by
  intro pt
  induction pt with
  | nil => intro j i h; simp at h
  | cons b bs ih =>
    intro j i h
    cases i with
    | zero => simp [HexCrypto.encryptBytesFrom]
    | succ i =>
      simp only [HexCrypto.encryptBytesFrom, List.getD_cons_succ]
      rw [ih (j + 1) i (by simp only [List.length_cons] at h; omega)]
      have hji : j + 1 + i = j + (i + 1) := by omega
      rw [hji]

/-! ## Claims -/

/-- C1: for every secret-derived key, every plaintext string (empty and
multi-byte UTF-8 included) and any 8-byte salt drawn during encryption,
decrypting the chain-tagged output of encryption with the same key
returns the plaintext exactly, and likewise for the bare encoded form:
`decryptFromChain (encryptForChain p).chainData = p` and
`decrypt (encrypt p) = p`. -/
theorem c1_round_trip (key salt : List Nat) (p : String)
    (hk : key.length = 32) (hkb : ∀ x ∈ key, x < 256)
    (hs : salt.length = 8) (hsb : ∀ x ∈ salt, x < 256) :
    HexCrypto.decryptFromChain key
        (HexCrypto.encryptForChain key salt p).chainData = p ∧
    HexCrypto.decrypt key (HexCrypto.encrypt key salt p) = p :=
  ⟨decryptFromChain_chainData key salt p hs hkb hsb,
   decrypt_encrypt key salt p hs hkb hsb⟩

set_option maxRecDepth 100000 in
/-- Witness for C1 at the key derived from secret `"test"`, salt
`[0,…,7]` and the plaintext `"Hi中"`. -/
theorem c1_round_trip_witness :
    (HexCrypto.key "test").length = 32 ∧
    (∀ x ∈ HexCrypto.key "test", x < 256) ∧
    ([0, 1, 2, 3, 4, 5, 6, 7] : List Nat).length = 8 ∧
    (∀ x ∈ ([0, 1, 2, 3, 4, 5, 6, 7] : List Nat), x < 256) ∧
    (HexCrypto.decryptFromChain (HexCrypto.key "test")
        (HexCrypto.encryptForChain (HexCrypto.key "test")
          [0, 1, 2, 3, 4, 5, 6, 7] "Hi中").chainData = "Hi中" ∧
      HexCrypto.decrypt (HexCrypto.key "test")
        (HexCrypto.encrypt (HexCrypto.key "test") [0, 1, 2, 3, 4, 5, 6, 7]
          "Hi中") = "Hi中") :=
  ⟨by decide, by decide, by decide, by decide,
   c1_round_trip (HexCrypto.key "test") [0, 1, 2, 3, 4, 5, 6, 7] "Hi中"
     (by decide) (by decide) (by decide) (by decide)⟩

/-- C2: for every plaintext byte, key and salt, the cipher byte at
position `i` is the plaintext byte XOR `key[i mod 32]` XOR
`salt[i mod 8]`, rotated left within 8 bits by `(i mod 7) + 1`; and
with key = SHA-256("test"), plaintext `"Hi"` and an all-zero salt the
cipher bytes are `[0xaf, 0xbf]` (the canonical conformance vector,
checked by hand). -/
theorem c2_cipher_formula :
    (∀ (key salt pt : List Nat) (i : Nat), key.length = 32 →
      salt.length = 8 → i < pt.length →
      (HexCrypto.encryptBytes key salt pt).getD i 0 =
        rotl8 ((pt.getD i 0 ^^^ key.getD (i % 32) 0) ^^^ salt.getD (i % 8) 0)
          (i % 7 + 1)) ∧
    HexCrypto.encryptBytes (HexCrypto.key "test") (List.replicate 8 0)
      (utf8Encode "Hi".data) = [175, 191] := by
  constructor
  · intro key salt pt i hk hs hi
    have h := encryptBytesFrom_getD key salt pt 0 i hi
    rw [Nat.zero_add] at h
    rw [HexCrypto.encryptBytes, h]
    unfold HexCrypto.transformEnc
    rw [hk, hs]
  · decide

set_option maxRecDepth 100000 in
/-- Witness for C2's per-position formula at position 0 of a two-byte
plaintext. -/
theorem c2_cipher_formula_witness :
    (List.replicate 32 9 : List Nat).length = 32 ∧
    (List.replicate 8 4 : List Nat).length = 8 ∧
    0 < ([72, 105] : List Nat).length ∧
    (HexCrypto.encryptBytes (List.replicate 32 9) (List.replicate 8 4)
        [72, 105]).getD 0 0 =
      rotl8 ((([72, 105] : List Nat).getD 0 0 ^^^
          (List.replicate 32 9 : List Nat).getD (0 % 32) 0) ^^^
        (List.replicate 8 4 : List Nat).getD (0 % 8) 0) (0 % 7 + 1) :=
  ⟨by decide, by decide, by decide,
   c2_cipher_formula.1 (List.replicate 32 9) (List.replicate 8 4) [72, 105] 0
     (by decide) (by decide) (by decide)⟩

/-- C3 counterexample: the claim says the decode step fails with
`DecodeError` on `"0x1234"` (fewer than 8 decoded bytes) and `"0xzz"`
(invalid hex digit).  The spec-side contract `decodeSpec` indeed
demands an error there, but the implementation's decode step returns
normally: `Buffer.from(hex, 'hex')` never throws, so `decode` yields a
short salt `[0x12, 0x34]` with empty cipher for `"0x1234"`, and empty
salt and cipher for `"0xzz"`. -/
theorem c3_decode_counterexample :
    decodeSpec "0x1234" = Except.error DecodeError.saltTooShort ∧
    HexCrypto.decode "0x1234" = ([18, 52], []) ∧
    decodeSpec "0xzz" = Except.error DecodeError.invalidHex ∧
    HexCrypto.decode "0xzz" = ([], []) :=
  ⟨rfl, by decide, rfl, by decide⟩

/-- C3 amended: the decode step never fails; it strips an optional
`0x`, hex-decodes with Node's truncating semantics and splits the
bytes, so `decode "0x1234"` returns salt `[0x12, 0x34]` and an empty
cipher, `decode "0xzz"` returns empty salt and cipher, and `decrypt`
returns the empty string on both, raising no error. -/
theorem c3_decode_amended :
    HexCrypto.decode "0x1234" = ([18, 52], []) ∧
    HexCrypto.decode "0xzz" = ([], []) ∧
    HexCrypto.decrypt (List.replicate 32 0) "0x1234" = "" ∧
    HexCrypto.decrypt (List.replicate 32 0) "0xzz" = "" := by
  refine ⟨by decide, by decide, by decide, by decide⟩

/-- C4 counterexample: the claim says the end-to-end decryption entry
point fails with `DecodeError` when the recovered bytes are not valid
UTF-8.  With an all-zero key, unwrapping and decoding
`"0xENC10000000000000000ff"` recovers the byte `0xff`, which strict
UTF-8 decoding rejects — yet `decryptFromChain` returns the string
`"�"` (U+FFFD) instead of failing. -/
theorem c4_utf8_counterexample :
    utf8DecodeStrict [255] = none ∧
    HexCrypto.decryptBytes (List.replicate 32 0) (List.replicate 8 0) [255] =
      [255] ∧
    HexCrypto.decryptFromChain (List.replicate 32 0)
      "0xENC10000000000000000ff" = "�" :=
  ⟨by decide, by decide, by decide⟩

/-- C4 amended: the entry point UTF-8-decodes the recovered bytes
leniently and never fails: wherever the spec's strict decoding
succeeds the implementation returns the same characters, and bytes
that are not valid UTF-8 are replaced by U+FFFD, a string being
returned in every case. -/
theorem c4_utf8_amended :
    (∀ (bs : List Nat) (cs : List Char), utf8DecodeStrict bs = some cs →
      utf8DecodeLenient bs = cs) ∧
    utf8DecodeLenient [255] = [replacementChar] ∧
    HexCrypto.decryptFromChain (List.replicate 32 0)
      "0xENC10000000000000000ff" = "�" :=
  ⟨utf8DecodeStrict_lenient, by decide, by decide⟩

/-- Witness for C4's amended claim: strict and lenient decoding agree
on the valid byte sequence `[0x48]`. -/
theorem c4_utf8_amended_witness :
    utf8DecodeStrict [72] = some ['H'] ∧ utf8DecodeLenient [72] = ['H'] :=
  ⟨by decide, c4_utf8_amended.1 [72] ['H'] (by decide)⟩

/-- C5: the cipher byte sequence has exactly the plaintext's UTF-8
length, the encoded message is `8 + len` bytes, and the hex string has
`2 + 2 * (8 + len)` characters. -/
theorem c5_length_invariant (key salt : List Nat) (p : String)
    (hs : salt.length = 8) :
    (HexCrypto.encryptBytes key salt (utf8Encode p.data)).length =
      (utf8Encode p.data).length ∧
    (salt ++ HexCrypto.encryptBytes key salt (utf8Encode p.data)).length =
      8 + (utf8Encode p.data).length ∧
    (HexCrypto.encrypt key salt p).data.length =
      2 + 2 * (8 + (utf8Encode p.data).length) := by
  have hc : (HexCrypto.encryptBytes key salt (utf8Encode p.data)).length =
      (utf8Encode p.data).length :=
    encryptBytesFrom_length key salt (utf8Encode p.data) 0
  refine ⟨hc, ?_, ?_⟩
  · rw [List.length_append, hs, hc]
  · rw [encrypt_data]
    simp only [List.length_cons, bytesToHexChars_length, List.length_append,
      hs, hc]
    omega

/-- Witness for C5 with an 8-byte salt and plaintext `"A"`. -/
theorem c5_length_invariant_witness :
    ([0, 1, 2, 3, 4, 5, 6, 7] : List Nat).length = 8 ∧
    ((HexCrypto.encryptBytes [] [0, 1, 2, 3, 4, 5, 6, 7]
        (utf8Encode "A".data)).length = (utf8Encode "A".data).length ∧
      ([0, 1, 2, 3, 4, 5, 6, 7] ++ HexCrypto.encryptBytes []
          [0, 1, 2, 3, 4, 5, 6, 7] (utf8Encode "A".data)).length =
        8 + (utf8Encode "A".data).length ∧
      (HexCrypto.encrypt [] [0, 1, 2, 3, 4, 5, 6, 7] "A").data.length =
        2 + 2 * (8 + (utf8Encode "A".data).length)) :=
  ⟨by decide, c5_length_invariant [] [0, 1, 2, 3, 4, 5, 6, 7] "A" (by decide)⟩

set_option maxRecDepth 100000 in
/-- C6: key derivation is the SHA-256 digest of the secret's bytes:
it is a pure deterministic function, its output is exactly 32 bytes
for every input (the empty secret included, whose digest is the
well-known `e3b0c442…b855`). -/
theorem c6_key_derivation :
    (∀ secret : String,
      HexCrypto.key secret = sha256 (utf8Encode secret.data)) ∧
    (∀ secret : String, (HexCrypto.key secret).length = 32) ∧
    (∀ bs : List Nat, (sha256 bs).length = 32) ∧
    (∀ s1 s2 : String, s1 = s2 → HexCrypto.key s1 = HexCrypto.key s2) ∧
    HexCrypto.key "" = sha256 [] ∧
    sha256 [] = [227, 176, 196, 66, 152, 252, 28, 20, 154, 251, 244, 200, 153,
      111, 185, 36, 39, 174, 65, 228, 100, 155, 147, 76, 164, 149, 153, 27,
      120, 82, 184, 85] :=
  ⟨fun _ => rfl, fun secret => sha256_length _, fun bs => sha256_length bs,
   fun _ _ h => congrArg HexCrypto.key h, rfl, by decide⟩

set_option maxRecDepth 100000 in
/-- Witness for C6's determinism conjunct at the secret `"test"`. -/
theorem c6_key_derivation_witness :
    ("test" : String) = "test" ∧ HexCrypto.key "test" = HexCrypto.key "test" :=
  ⟨by decide, c6_key_derivation.2.2.2.1 "test" "test" (by decide)⟩

/-- C7: for every string beginning with `0x`, unwrapping the chain tag
of the wrapped string gives back the original; and every input that
does not start with `0xENC1` passes through the unwrap unchanged. -/
theorem c7_chain_tag (X : String) (hX : X.data.take 2 = ['0', 'x']) :
    String.mk (HexCrypto.fromChainTag (HexCrypto.toChainTag X.data)) = X ∧
    (∀ cs : List Char, cs.take 6 ≠ ['0', 'x', 'E', 'N', 'C', '1'] →
      HexCrypto.fromChainTag cs = cs) := by
  constructor
  · rw [fromChainTag_toChainTag X.data hX]
  · intro cs h
    rw [HexCrypto.fromChainTag, if_neg h]

/-- Witness for C7 at the encoded hex string `"0xab"` and the untagged
input `"0x1234"`. -/
theorem c7_chain_tag_witness :
    ("0xab" : String).data.take 2 = ['0', 'x'] ∧
    (String.mk (HexCrypto.fromChainTag (HexCrypto.toChainTag
        ("0xab" : String).data)) = "0xab" ∧
      (∀ cs : List Char, cs.take 6 ≠ ['0', 'x', 'E', 'N', 'C', '1'] →
        HexCrypto.fromChainTag cs = cs)) :=
  ⟨by decide, c7_chain_tag "0xab" (by decide)⟩

/-- C8: two encryptions of the same plaintext under the same key with
distinct 8-byte salts produce different output strings, and each of
the two outputs still decrypts back to the plaintext. -/
theorem c8_salt_freshness (key s1 s2 : List Nat) (p : String)
    (h1 : s1.length = 8) (h2 : s2.length = 8)
    (hb1 : ∀ x ∈ s1, x < 256) (hb2 : ∀ x ∈ s2, x < 256)
    (hkb : ∀ x ∈ key, x < 256) (hne : s1 ≠ s2) :
    HexCrypto.encrypt key s1 p ≠ HexCrypto.encrypt key s2 p ∧
    HexCrypto.decrypt key (HexCrypto.encrypt key s1 p) = p ∧
    HexCrypto.decrypt key (HexCrypto.encrypt key s2 p) = p :=
  ⟨encrypt_ne_of_salt_ne key s1 s2 p h1 h2 hb1 hb2 hne,
   decrypt_encrypt key s1 p h1 hkb hb1,
   decrypt_encrypt key s2 p h2 hkb hb2⟩

set_option maxRecDepth 100000 in
/-- Witness for C8 with two distinct salts and the plaintext
`"Same message"`. -/
theorem c8_salt_freshness_witness :
    (List.replicate 8 0 : List Nat).length = 8 ∧
    ([1, 0, 0, 0, 0, 0, 0, 0] : List Nat).length = 8 ∧
    (∀ x ∈ (List.replicate 8 0 : List Nat), x < 256) ∧
    (∀ x ∈ ([1, 0, 0, 0, 0, 0, 0, 0] : List Nat), x < 256) ∧
    (∀ x ∈ (List.replicate 32 7 : List Nat), x < 256) ∧
    (List.replicate 8 0 : List Nat) ≠ [1, 0, 0, 0, 0, 0, 0, 0] ∧
    (HexCrypto.encrypt (List.replicate 32 7) (List.replicate 8 0)
        "Same message" ≠
      HexCrypto.encrypt (List.replicate 32 7) [1, 0, 0, 0, 0, 0, 0, 0]
        "Same message" ∧
      HexCrypto.decrypt (List.replicate 32 7)
        (HexCrypto.encrypt (List.replicate 32 7) (List.replicate 8 0)
          "Same message") = "Same message" ∧
      HexCrypto.decrypt (List.replicate 32 7)
        (HexCrypto.encrypt (List.replicate 32 7) [1, 0, 0, 0, 0, 0, 0, 0]
          "Same message") = "Same message") :=
  ⟨by decide, by decide, by decide, by decide, by decide, by decide,
   c8_salt_freshness (List.replicate 32 7) (List.replicate 8 0)
     [1, 0, 0, 0, 0, 0, 0, 0] "Same message" (by decide) (by decide)
     (by decide) (by decide) (by decide) (by decide)⟩

/-- C9: the plain hex helpers round-trip losslessly for every string:
`hexToString (stringToHex s) = s`, where `stringToHex` returns `0x`
followed by the lowercase hex of the UTF-8 bytes of `s`. -/
theorem c9_hex_helpers :
    (∀ s : String, HexCrypto.hexToString (HexCrypto.stringToHex s) = s) ∧
    (∀ s : String, HexCrypto.stringToHex s =
      String.mk ('0' :: 'x' :: bytesToHexChars (utf8Encode s.data))) := by
  constructor
  · intro s
    unfold HexCrypto.hexToString HexCrypto.stringToHex
    rw [show (String.mk ('0' :: 'x' :: bytesToHexChars (utf8Encode s.data))).data
        = '0' :: 'x' :: bytesToHexChars (utf8Encode s.data) from rfl]
    rw [strip0x_prepend, nodeHexDecode_encode _ (utf8Encode_lt_256 s.data),
      utf8DecodeLenient_encode]
  · intro s
    rfl

/-- C10: `decrypt` (hence `decryptFromChain`) is total over all
strings: the empty string, odd-length hex, non-hex characters and
fewer than 8 decoded bytes all return a string without any error;
malformed hex is truncated at the first invalid pair, and a byte that
is not valid UTF-8 decodes to the replacement character rather than
being rejected. -/
theorem c10_decrypt_total (key : List Nat) :
    HexCrypto.decrypt key "" = "" ∧
    HexCrypto.decrypt key "0x123" = "" ∧
    HexCrypto.decrypt key "0xzz" = "" ∧
    HexCrypto.decrypt key "0x1234" = "" ∧
    HexCrypto.decryptFromChain key "0xENC1zz" = "" ∧
    (∀ (bs : List Nat) (c1 c2 : Char) (rest : List Char),
      (∀ x ∈ bs, x < 256) → ¬(isHexDigitChar c1 ∧ isHexDigitChar c2) →
      nodeHexDecode (bytesToHexChars bs ++ c1 :: c2 :: rest) = bs) ∧
    utf8DecodeLenient [255] = [replacementChar] :=
  ⟨rfl, rfl, rfl, rfl, rfl,
   fun bs c1 c2 rest hb hbad => nodeHexDecode_truncate bs hb c1 c2 rest hbad,
   by decide⟩

/-- Witness for C10's truncation conjunct: two valid bytes followed by
an invalid pair decode to exactly those two bytes. -/
theorem c10_decrypt_total_witness :
    (∀ x ∈ ([18, 52] : List Nat), x < 256) ∧
    ¬(isHexDigitChar 'z' ∧ isHexDigitChar 'z') ∧
    HexCrypto.decrypt [1, 2] "0x1234" = "" ∧
    nodeHexDecode (bytesToHexChars [18, 52] ++ 'z' :: 'z' :: []) = [18, 52] :=
  ⟨by decide, by decide, (c10_decrypt_total [1, 2]).2.2.2.1,
   (c10_decrypt_total [1, 2]).2.2.2.2.2.1 [18, 52] 'z' 'z' [] (by decide)
     (by decide)⟩
